import Mathlib

/-!
Shallow embedding of `mnamer/utils.py` (string utilities of the mnamer
media-file renamer) and proofs about the claims of its specification.

Strings are modelled as `List Char` (with `String` wrappers where the
original function signature takes a `str`).  Python's `str.lower` /
`str.upper` are modelled twice: `pyLower` / `pyUpper` are per-character
ASCII case maps (exact on ASCII inputs, on which the concrete
evaluations below take place), while `pyLowerU` / `pyUpperU` are
character-to-string maps that also keep the one-to-many entries of the
Unicode case database ('ß'.upper() = "SS", 'İ'.lower() is two
characters); `str_title_case_u` is the title caser built on the latter,
and the two pipelines are proved to agree on ASCII inputs.  Fallible
constructs (`assert`, `re.match` returning `None`) are modelled with
`Except` / `Option`.
-/

namespace Mnamer

/-- Python `str.lower` restricted to single-character (ASCII) case
mappings; exact on ASCII code points.  The string-valued `pyLowerU`
below also keeps the one-to-many Unicode entries. -/
def pyLower (c : Char) : Char :=
  if 65 ≤ c.toNat ∧ c.toNat ≤ 90 then Char.ofNat (c.toNat + 32) else c

/-- Python `str.upper` restricted to single-character (ASCII) case
mappings; exact on ASCII code points.  The string-valued `pyUpperU`
below also keeps the one-to-many Unicode entries. -/
def pyUpper (c : Char) : Char :=
  if 97 ≤ c.toNat ∧ c.toNat ≤ 122 then Char.ofNat (c.toNat - 32) else c

/-- Python `str.isspace` characters stripped by `str.strip()` (ASCII). -/
def pyIsSpace (c : Char) : Bool :=
  c = ' ' || c = '\t' || c = '\n' || c = '\r' || c = Char.ofNat 11 || c = Char.ofNat 12

theorem char_toNat_ofNat_lt {n : Nat} (h : n < 55296) : (Char.ofNat n).toNat = n := by
  have hv : Nat.isValidChar n := Or.inl h
  simp [Char.ofNat, hv, Char.ofNatAux, Char.toNat, UInt32.toNat, BitVec.toNat_ofNatLt]

theorem pyLower_pyLower (c : Char) : pyLower (pyLower c) = pyLower c := by
  by_cases h : 65 ≤ c.toNat ∧ c.toNat ≤ 90
  · have h32 : (Char.ofNat (c.toNat + 32)).toNat = c.toNat + 32 :=
      char_toNat_ofNat_lt (by omega)
    have h1 : pyLower c = Char.ofNat (c.toNat + 32) := by
      simp only [pyLower, if_pos h]
    rw [h1]
    simp only [pyLower, h32]
    rw [if_neg (by omega)]
  · have h1 : pyLower c = c := by simp only [pyLower, if_neg h]
    rw [h1]
    exact h1

theorem pyLower_pyUpper (c : Char) : pyLower (pyUpper c) = pyLower c := by
  by_cases h : 97 ≤ c.toNat ∧ c.toNat ≤ 122
  · have h1 : (Char.ofNat (c.toNat - 32)).toNat = c.toNat - 32 :=
      char_toNat_ofNat_lt (by omega)
    have h2 : pyUpper c = Char.ofNat (c.toNat - 32) := by
      simp only [pyUpper, if_pos h]
    have h3 : pyLower (Char.ofNat (c.toNat - 32)) = Char.ofNat (c.toNat - 32 + 32) := by
      simp only [pyLower, h1]
      rw [if_pos (by omega)]
    have h4 : c.toNat - 32 + 32 = c.toNat := by omega
    have h5 : pyLower c = c := by
      simp only [pyLower]
      rw [if_neg (by omega)]
    rw [h2, h3, h4, Char.ofNat_toNat, h5]
  · have h2 : pyUpper c = c := by simp only [pyUpper, if_neg h]
    rw [h2]

/-- Function `findall` from the source: the generator yields every index `i` (in
increasing order) at which the pattern `ss` occurs in `s`; Python's
`str.find` also reports an occurrence of the empty pattern at `len(s)`,
hence the range bound `s.length + 1`. -/
def findall (s ss : List Char) : List Nat :=
  (List.range (s.length + 1)).filter (fun i => ss.isPrefixOf (s.drop i))

theorem isPrefixOf_exists {l : List Char} :
    ∀ {t : List Char}, l.isPrefixOf t = true → ∃ u, t = l ++ u := by
  induction l with
  | nil => exact fun {t} _ => ⟨t, rfl⟩
  | cons a as ih =>
    intro t h
    cases t with
    | nil => simp [List.isPrefixOf] at h
    | cons b bs =>
      simp only [List.isPrefixOf, Bool.and_eq_true, beq_iff_eq] at h
      obtain ⟨rfl, h2⟩ := h
      obtain ⟨u, rfl⟩ := ih h2
      exact ⟨u, rfl⟩

theorem findall_mem {s ss : List Char} {p : Nat} (h : p ∈ findall s ss) :
    p ≤ s.length ∧ ∃ u, s.drop p = ss ++ u := by
  unfold findall at h
  rw [List.mem_filter, List.mem_range] at h
  obtain ⟨hr, hp⟩ := h
  exact ⟨by omega, isPrefixOf_exists hp⟩

/-- Constant `padding_chars = ".- "` from the source (iterated in string order). -/
def padding_chars : List Char := ['.', '-', ' ']

/-- Constant `paren_chars` (the source string of brackets) from the source (braces written via
their code points). -/
def paren_chars : List Char :=
  ['[', ']', '(', ')', Char.ofNat 123, Char.ofNat 125, '<', '>',
   Char.ofNat 123, Char.ofNat 125]

/-- Constant `punctuation_chars` (parens plus quote/punctuation marks) from the source
(backtick and apostrophe written via their code points). -/
def punctuation_chars : List Char :=
  paren_chars ++ ['"', '!', '?', '$', ',', '-', '.', ':', ';', '@', '_',
    Char.ofNat 96, Char.ofNat 39]

/-- The `lowercase_exceptions` set of the source, as a list in source
order (the loops applied for distinct exception words commute, so the
set's iteration order does not affect the result). -/
def lowercase_exceptions : List (List Char) :=
  ["a", "an", "and", "as", "at", "but", "by", "de", "des", "du", "for",
   "from", "in", "is", "le", "nor", "of", "on", "or", "the", "to", "un",
   "une", "with", "via"].map String.data

/-- The `uppercase_exceptions` set of the source, as a list in source
order. -/
def uppercase_exceptions : List (List Char) :=
  ["i", "ii", "iii", "iv", "v", "vi", "vii", "viii", "ix", "x", "2d",
   "3d", "au", "aka", "atm", "bbc", "bff", "cia", "csi", "dc", "doa",
   "espn", "fbi", "ira", "jfk", "lol", "mlb", "mlk", "mtv", "nba", "nfl",
   "nhl", "nsfw", "nyc", "omg", "pga", "oj", "rsvp", "tnt", "tv", "ufc",
   "ufo", "uk", "usa", "vip", "wtf", "wwe", "wwi", "wwii", "xxx",
   "yolo"].map String.data

/-- Inner loop of the "uppercase characters after padding characters"
pass: for each position `p` of the padding character (positions are
yielded by `findall` in increasing order), `break` when the padding
character is the last character, else uppercase the following character
(the two slice expressions of the source are kept verbatim). -/
def padInner (len : Nat) : List Nat → List Char → List Char
  | [], s => s
  | p :: ps, s =>
    if p + 1 = len then s
    else if p + 2 < len then
      padInner len ps
        (s.take (p + 1) ++ [pyUpper (s.getD (p + 1) ' ')] ++ s.drop (p + 2))
    else
      padInner len ps (s.take (p + 1) ++ [pyUpper (s.getD (p + 1) ' ')])

/-- Loop `for char in padding_chars: for pos in findall(s, char)`; the
generator snapshots `s` when created, so the positions are computed on
the value of `s` at entry of the inner loop. -/
def padLoop (len : Nat) : List Char → List Char → List Char
  | [], s => s
  | c :: cs, s => padLoop len cs (padInner len (findall s [c]) s)

/-- Inner loop of the "uppercase characters inside parentheses" pass;
the `continue` guard reads the current `s`, the surgery mirrors
`s[:pos+1] + s[pos+1].upper() + s[pos+2:]`. -/
def parenInner (len : Nat) : List Nat → List Char → List Char
  | [], s => s
  | p :: ps, s =>
    if 0 < p ∧ ¬ (s.getD (p - 1) ' ' ∈ padding_chars) then
      parenInner len ps s
    else if p + 1 < len then
      parenInner len ps
        (s.take (p + 1) ++ [pyUpper (s.getD (p + 1) ' ')] ++ s.drop (p + 2))
    else
      parenInner len ps s

/-- Loop `for char in paren_chars: for pos in findall(s, char)`. -/
def parenLoop (len : Nat) : List Char → List Char → List Char
  | [], s => s
  | c :: cs, s => parenLoop len cs (parenInner len (findall s [c]) s)

/-- Inner loop of the lowercase-exception pass.  Note the `break` of the
source: when an occurrence starts at position < 2 the whole inner loop
stops, skipping all later occurrences of the same exception word. -/
def lcInner (sl : List Char) (len : Nat) (exc : List Char) :
    List Nat → List Char → List Char
  | [], s => s
  | p :: ps, s =>
    if p < 2 then s
    else
      if (sl.getD (p - 1) ' ' ∈ padding_chars) ∧
          (¬ p + exc.length = len ∧ sl.getD (p + exc.length) ' ' ∈ padding_chars) then
        lcInner sl len exc ps
          (s.take p ++ exc.map pyLower ++ s.drop (p + exc.length))
      else lcInner sl len exc ps s

/-- Loop `for exception in lowercase_exceptions: for pos in findall(string_lower, exception)`. -/
def lcLoop (sl : List Char) (len : Nat) : List (List Char) → List Char → List Char
  | [], s => s
  | e :: es, s => lcLoop sl len es (lcInner sl len e (findall sl e) s)

/-- Inner loop of the uppercase-exception pass (no `break`; string
start/end count as boundaries, and boundaries include punctuation). -/
def ucInner (sl : List Char) (len : Nat) (exc : List Char) :
    List Nat → List Char → List Char
  | [], s => s
  | p :: ps, s =>
    if (p = 0 ∨ sl.getD (p - 1) ' ' ∈ padding_chars ++ punctuation_chars) ∧
        (p + exc.length = len ∨
          sl.getD (p + exc.length) ' ' ∈ padding_chars ++ punctuation_chars) then
      ucInner sl len exc ps
        (s.take p ++ exc.map pyUpper ++ s.drop (p + exc.length))
    else ucInner sl len exc ps s

/-- Loop `for exception in uppercase_exceptions: for pos in findall(string_lower, exception)`. -/
def ucLoop (sl : List Char) (len : Nat) : List (List Char) → List Char → List Char
  | [], s => s
  | e :: es, s => ucLoop sl len es (ucInner sl len e (findall sl e) s)

/-- Body of `str_title_case` after the initial lowering: the source sets
`string_lower = s.lower()`, `string_length = len(s)` and `s = s.lower()`,
so everything after that point is a function of the lowered string `sl`
alone. -/
def titleCore (sl : List Char) : List Char :=
  let len := sl.length
  let s1 := match sl with
    | [] => sl
    | c :: cs => pyUpper c :: cs
  let s2 := padLoop len padding_chars s1
  let s3 := parenLoop len paren_chars s2
  let s4 := lcLoop sl len lowercase_exceptions s3
  ucLoop sl len uppercase_exceptions s4

/-- Function `str_title_case` from the source: empty strings are returned
unchanged, otherwise the cased passes run on the lowered copy. -/
def str_title_case (s : String) : String :=
  if s.data = [] then s else ⟨titleCore (s.data.map pyLower)⟩

theorem map_pyLower_idem (l : List Char) : (l.map pyLower).map pyLower = l.map pyLower := by
  rw [List.map_map]
  exact List.map_congr_left (fun a _ => pyLower_pyLower a)

theorem map_pyLower_map_pyUpper (l : List Char) :
    (l.map pyUpper).map pyLower = l.map pyLower := by
  rw [List.map_map]
  exact List.map_congr_left (fun a _ => pyLower_pyUpper a)

/-- Replacing the slice `[i, i+k)` of `s` by a block whose lowercase
image is the corresponding slice of `sl` preserves the lowercase image. -/
theorem surgery_map_pyLower {s sl w : List Char} {i k : Nat}
    (hs : s.map pyLower = sl)
    (hw : w.map pyLower = (sl.drop i).take k) :
    (s.take i ++ w ++ s.drop (i + k)).map pyLower = sl := by
  rw [List.map_append, List.map_append, List.map_take, List.map_drop, hs, hw,
    List.append_assoc, ← List.drop_drop, List.take_append_drop, List.take_append_drop]

theorem getD_map_pyLower {s : List Char} {i : Nat} (h : i < s.length) (d : Char) :
    pyLower (s.getD i d) = (s.map pyLower).getD i d := by
  rw [List.getD_eq_getElem _ _ h, List.getD_eq_getElem _ _ (by simpa using h)]
  simp

theorem take_one_drop {l : List Char} {i : Nat} (h : i < l.length) (d : Char) :
    (l.drop i).take 1 = [l.getD i d] := by
  rw [List.getD_eq_getElem _ _ h, List.drop_eq_getElem_cons h]
  rfl

theorem padInner_map_pyLower {sl : List Char} :
    ∀ (ps : List Nat) (s : List Char), s.map pyLower = sl →
      (∀ p ∈ ps, p < sl.length) →
      (padInner sl.length ps s).map pyLower = sl := by
  intro ps
  induction ps with
  | nil =>
    intro s hs _
    simpa [padInner] using hs
  | cons p ps ih =>
    intro s hs hb
    have hp : p < sl.length := hb p (by simp)
    have hsl : s.length = sl.length := by rw [← hs]; simp
    have hbtl : ∀ q ∈ ps, q < sl.length := fun q hq => hb q (by simp [hq])
    by_cases h1 : p + 1 = sl.length
    · simpa [padInner, h1] using hs
    · have hp1 : p + 1 < sl.length := by omega
      have hw : ([pyUpper (s.getD (p + 1) ' ')].map pyLower) = (sl.drop (p + 1)).take 1 := by
        rw [take_one_drop hp1 ' ']
        simp only [List.map_cons, List.map_nil]
        rw [pyLower_pyUpper, getD_map_pyLower (by omega) ' ', hs]
      by_cases h2 : p + 2 < sl.length
      · rw [padInner, if_neg h1, if_pos h2]
        exact ih _ (surgery_map_pyLower hs hw) hbtl
      · have hdrop : s.drop (p + 2) = [] := List.drop_of_length_le (by omega)
        have hexpr : s.take (p + 1) ++ [pyUpper (s.getD (p + 1) ' ')] =
            s.take (p + 1) ++ [pyUpper (s.getD (p + 1) ' ')] ++ s.drop (p + 2) := by
          rw [hdrop, List.append_nil]
        rw [padInner, if_neg h1, if_neg h2, hexpr]
        exact ih _ (surgery_map_pyLower hs hw) hbtl

theorem parenInner_map_pyLower {sl : List Char} :
    ∀ (ps : List Nat) (s : List Char), s.map pyLower = sl →
      (parenInner sl.length ps s).map pyLower = sl := by
  intro ps
  induction ps with
  | nil =>
    intro s hs
    simpa [parenInner] using hs
  | cons p ps ih =>
    intro s hs
    by_cases h1 : 0 < p ∧ ¬ (s.getD (p - 1) ' ' ∈ padding_chars)
    · rw [parenInner, if_pos h1]
      exact ih _ hs
    · by_cases h2 : p + 1 < sl.length
      · have hw : ([pyUpper (s.getD (p + 1) ' ')].map pyLower) = (sl.drop (p + 1)).take 1 := by
          rw [take_one_drop h2 ' ']
          simp only [List.map_cons, List.map_nil]
          have hsl : s.length = sl.length := by rw [← hs]; simp
          rw [pyLower_pyUpper, getD_map_pyLower (by omega) ' ', hs]
        rw [parenInner, if_neg h1, if_pos h2]
        exact ih _ (surgery_map_pyLower hs hw)
      · rw [parenInner, if_neg h1, if_neg h2]
        exact ih _ hs

theorem lcInner_map_pyLower {sl exc : List Char} (hexc : exc.map pyLower = exc) :
    ∀ (ps : List Nat) (s : List Char), s.map pyLower = sl →
      (∀ p ∈ ps, ∃ u, sl.drop p = exc ++ u) →
      (lcInner sl sl.length exc ps s).map pyLower = sl := by
  intro ps
  induction ps with
  | nil =>
    intro s hs _
    simpa [lcInner] using hs
  | cons p ps ih =>
    intro s hs hb
    have hbtl : ∀ q ∈ ps, ∃ u, sl.drop q = exc ++ u := fun q hq => hb q (by simp [hq])
    by_cases h1 : p < 2
    · simpa [lcInner, h1] using hs
    · by_cases h2 : (sl.getD (p - 1) ' ' ∈ padding_chars) ∧
          (¬ p + exc.length = sl.length ∧ sl.getD (p + exc.length) ' ' ∈ padding_chars)
      · have hw : ((exc.map pyLower).map pyLower) = (sl.drop p).take exc.length := by
          obtain ⟨u, hu⟩ := hb p (by simp)
          rw [hexc, hexc, hu, List.take_left]
        rw [lcInner, if_neg h1, if_pos h2]
        exact ih _ (surgery_map_pyLower hs hw) hbtl
      · rw [lcInner, if_neg h1, if_neg h2]
        exact ih _ hs hbtl

theorem ucInner_map_pyLower {sl exc : List Char} (hexc : exc.map pyLower = exc) :
    ∀ (ps : List Nat) (s : List Char), s.map pyLower = sl →
      (∀ p ∈ ps, ∃ u, sl.drop p = exc ++ u) →
      (ucInner sl sl.length exc ps s).map pyLower = sl := by
  intro ps
  induction ps with
  | nil =>
    intro s hs _
    simpa [ucInner] using hs
  | cons p ps ih =>
    intro s hs hb
    have hbtl : ∀ q ∈ ps, ∃ u, sl.drop q = exc ++ u := fun q hq => hb q (by simp [hq])
    by_cases h1 : (p = 0 ∨ sl.getD (p - 1) ' ' ∈ padding_chars ++ punctuation_chars) ∧
        (p + exc.length = sl.length ∨
          sl.getD (p + exc.length) ' ' ∈ padding_chars ++ punctuation_chars)
    · have hw : ((exc.map pyUpper).map pyLower) = (sl.drop p).take exc.length := by
        obtain ⟨u, hu⟩ := hb p (by simp)
        rw [map_pyLower_map_pyUpper, hexc, hu, List.take_left]
      rw [ucInner, if_pos h1]
      exact ih _ (surgery_map_pyLower hs hw) hbtl
    · rw [ucInner, if_neg h1]
      exact ih _ hs hbtl

theorem padLoop_map_pyLower {sl : List Char} :
    ∀ (cs : List Char) (s : List Char), s.map pyLower = sl →
      (padLoop sl.length cs s).map pyLower = sl := by
  intro cs
  induction cs with
  | nil =>
    intro s hs
    simpa [padLoop] using hs
  | cons c cs ih =>
    intro s hs
    rw [padLoop]
    refine ih _ (padInner_map_pyLower _ _ hs ?_)
    intro p hp
    obtain ⟨hple, u, hu⟩ := findall_mem hp
    have hlt : p < s.length := by
      by_contra hcon
      have hnil : s.drop p = [] := List.drop_of_length_le (by omega)
      rw [hnil] at hu
      simp at hu
    have hsl : s.length = sl.length := by rw [← hs]; simp
    omega

theorem parenLoop_map_pyLower {sl : List Char} :
    ∀ (cs : List Char) (s : List Char), s.map pyLower = sl →
      (parenLoop sl.length cs s).map pyLower = sl := by
  intro cs
  induction cs with
  | nil =>
    intro s hs
    simpa [parenLoop] using hs
  | cons c cs ih =>
    intro s hs
    rw [parenLoop]
    exact ih _ (parenInner_map_pyLower _ _ hs)

theorem lcLoop_map_pyLower {sl : List Char} :
    ∀ (es : List (List Char)) (s : List Char), s.map pyLower = sl →
      (∀ e ∈ es, e.map pyLower = e) →
      (lcLoop sl sl.length es s).map pyLower = sl := by
  intro es
  induction es with
  | nil =>
    intro s hs _
    simpa [lcLoop] using hs
  | cons e es ih =>
    intro s hs he
    rw [lcLoop]
    refine ih _ (lcInner_map_pyLower (he e (by simp)) _ _ hs ?_) ?_
    · intro p hp
      exact (findall_mem hp).2
    · intro e2 he2
      exact he e2 (by simp [he2])

theorem ucLoop_map_pyLower {sl : List Char} :
    ∀ (es : List (List Char)) (s : List Char), s.map pyLower = sl →
      (∀ e ∈ es, e.map pyLower = e) →
      (ucLoop sl sl.length es s).map pyLower = sl := by
  intro es
  induction es with
  | nil =>
    intro s hs _
    simpa [ucLoop] using hs
  | cons e es ih =>
    intro s hs he
    rw [ucLoop]
    refine ih _ (ucInner_map_pyLower (he e (by simp)) _ _ hs ?_) ?_
    · intro p hp
      exact (findall_mem hp).2
    · intro e2 he2
      exact he e2 (by simp [he2])

/-- All passes of the title caser only change the case of characters:
the lowercase image of the result is the (already lowered) input. -/
theorem titleCore_map_pyLower {sl : List Char} (h : sl.map pyLower = sl) :
    (titleCore sl).map pyLower = sl := by
  have hs1 : (match sl with
      | [] => sl
      | c :: cs => pyUpper c :: cs).map pyLower = sl := by
    cases sl with
    | nil => simp
    | cons c cs =>
      have h1 : pyLower c = c ∧ cs.map pyLower = cs := by simpa using h
      simp only [List.map_cons]
      rw [pyLower_pyUpper, h1.1, h1.2]
  simp only [titleCore]
  exact ucLoop_map_pyLower _ _
    (lcLoop_map_pyLower _ _
      (parenLoop_map_pyLower _ _ (padLoop_map_pyLower _ _ hs1)) (by decide))
    (by decide)

theorem str_title_case_of_nil {t : String} (h : t.data = []) : str_title_case t = t := by
  unfold str_title_case
  rw [if_pos h]

theorem str_title_case_of_ne_nil {t : String} (h : t.data ≠ []) :
    str_title_case t = ⟨titleCore (t.data.map pyLower)⟩ := by
  unfold str_title_case
  rw [if_neg h]

/-- Claim C1 (code bug): on the specification's own example the code
does not lowercase the second "the".  The inner loop over occurrences of
a lowercase-forced exception executes `break` (not `continue`) when an
occurrence starts at position < 2, so the occurrence of "the" at
position 0 aborts the loop and the bounded occurrence at position 12 is
never processed: the code returns "The Lord of The Rings" where the
claim requires "The Lord of the Rings". -/
theorem str_title_case_lord_of_the_rings :
    str_title_case "the lord of the rings" = "The Lord of The Rings" ∧
    str_title_case "the lord of the rings" ≠ "The Lord of the Rings" := by
  constructor
  · decide
  · decide

/-- Claim C8: on "star wars: episode iv - a new hope" the code
uppercases the roman-numeral exception "iv" (positions 19-20) and leaves
the article "a" (position 24) lowercase. -/
theorem str_title_case_star_wars :
    str_title_case "star wars: episode iv - a new hope"
      = "Star Wars: Episode IV - a New Hope" ∧
    ((str_title_case "star wars: episode iv - a new hope").data.drop 19).take 2
      = ['I', 'V'] ∧
    (str_title_case "star wars: episode iv - a new hope").data.getD 24 'x' = 'a' := by
  refine ⟨?_, ?_, ?_⟩
  · decide
  · decide
  · decide

/-- Helper for `re.sub(r"\(\s*\)", "", s)` and `re.sub(r"\[\s*]", "", s)`:
after an opening bracket, consume `\s*` (greedy, deterministic since the
closing bracket is not whitespace) and then the closing bracket. -/
def matchWsClose (cls : Char) (l : List Char) : Option (List Char) :=
  match l.dropWhile pyIsSpace with
  | [] => Option.none
  | c :: rest => if c = cls then some rest else Option.none

theorem matchWsClose_length {cls : Char} {l t : List Char}
    (h : matchWsClose cls l = some t) : t.length < l.length := by
  unfold matchWsClose at h
  cases hd : l.dropWhile pyIsSpace with
  | nil => rw [hd] at h; simp at h
  | cons c rest =>
    rw [hd] at h
    dsimp only at h
    by_cases hc : c = cls
    · rw [if_pos hc] at h
      have ht : t = rest := by simpa using h.symm
      subst ht
      have hlen : t.length + 1 = (l.dropWhile pyIsSpace).length := by
        rw [hd]; rfl
      have hle : (l.dropWhile pyIsSpace).length ≤ l.length :=
        (List.dropWhile_sublist pyIsSpace).length_le
      omega
    · rw [if_neg hc] at h
      simp at h

/-- Left-to-right scan of `re.sub` for the empty-bracket patterns: a
matched `open ws* close` span is replaced by nothing and scanning
resumes after it. -/
def subEmptyBrackets (opn cls : Char) : List Char → List Char
  | [] => []
  | c :: rest =>
    if c = opn then
      match hm : matchWsClose cls rest with
      | some t => subEmptyBrackets opn cls t
      | Option.none => c :: subEmptyBrackets opn cls rest
    else c :: subEmptyBrackets opn cls rest
termination_by l => l.length
decreasing_by
  · have := matchWsClose_length hm
    simp only [List.length_cons]
    omega
  · simp only [List.length_cons]
    omega
  · simp only [List.length_cons]
    omega

theorem subEmptyBrackets_length (opn cls : Char) (l : List Char) :
    (subEmptyBrackets opn cls l).length ≤ l.length := by
  induction l using subEmptyBrackets.induct opn cls with
  | case1 => simp [subEmptyBrackets]
  | case2 cs t hm ih =>
    have h1 := matchWsClose_length hm
    rw [subEmptyBrackets, if_pos rfl]
    split
    · rename_i t2 heq
      have ht2 : t = t2 := by
        have := hm.symm.trans heq
        simpa using this
      subst ht2
      simp only [List.length_cons]
      omega
    · rename_i heq
      rw [hm] at heq
      simp at heq
  | case3 cs hm ih =>
    rw [subEmptyBrackets, if_pos rfl]
    split
    · rename_i t2 heq
      rw [hm] at heq
      simp at heq
    · simp only [List.length_cons]
      omega
  | case4 c cs hc ih =>
    rw [subEmptyBrackets, if_neg hc]
    simp only [List.length_cons]
    omega

/-- Left-to-right scan of `re.sub(r"-+", "-", s)` and
`re.sub(r"\s+", " ", s)`: a maximal run of characters satisfying `p` is
replaced by the single character `r`. -/
def collapseRuns (p : Char → Bool) (r : Char) : List Char → List Char
  | [] => []
  | c :: rest =>
    if p c then r :: collapseRuns p r (rest.dropWhile p)
    else c :: collapseRuns p r rest
termination_by l => l.length
decreasing_by
  · simp only [List.length_cons]
    exact Nat.lt_succ_of_le (List.dropWhile_sublist p).length_le
  · simp only [List.length_cons]
    omega

theorem collapseRuns_length (p : Char → Bool) (r : Char) (l : List Char) :
    (collapseRuns p r l).length ≤ l.length := by
  induction l using collapseRuns.induct p r with
  | case1 => simp [collapseRuns]
  | case2 c rest hc ih =>
    rw [collapseRuns, if_pos hc]
    have h1 : (rest.dropWhile p).length ≤ rest.length :=
      (List.dropWhile_sublist p).length_le
    simp only [List.length_cons]
    omega
  | case3 c rest hc ih =>
    rw [collapseRuns, if_neg hc]
    simp only [List.length_cons]
    omega

/-- The delimiters of the pattern `( [-.,_])+`. -/
def delimiter_set : List Char := ['-', '.', ',', '_']

/-- Greedy match of `( [-.,_])+` at the current position: returns the
last captured delimiter (the `\1` of the replacement) and the remainder
after the matched span. -/
def takeUnits : List Char → Option (Char × List Char)
  | a :: b :: rest =>
    if a = ' ' ∧ b ∈ delimiter_set then
      match takeUnits rest with
      | some (d, t) => some (d, t)
      | Option.none => some (b, rest)
    else Option.none
  | _ => Option.none

theorem takeUnits_length : ∀ (l : List Char) (d : Char) (t : List Char),
    takeUnits l = some (d, t) → t.length + 2 ≤ l.length
  | [], d, t => by simp [takeUnits]
  | [a], d, t => by simp [takeUnits]
  | a :: b :: rest, d, t => by
    simp only [takeUnits]
    by_cases hc : a = ' ' ∧ b ∈ delimiter_set
    · rw [if_pos hc]
      cases hm : takeUnits rest with
      | none =>
        intro h
        have hbt : (b, rest) = (d, t) := Option.some.inj h
        have ht : t = rest := (congrArg Prod.snd hbt).symm
        simp only [List.length_cons, ht]
        omega
      | some pr =>
        obtain ⟨d2, t2⟩ := pr
        intro h
        have hbt : (d2, t2) = (d, t) := Option.some.inj h
        have hd2 : d2 = d := congrArg Prod.fst hbt
        have ht2 : t2 = t := congrArg Prod.snd hbt
        have := takeUnits_length rest d t (by rw [hm, hd2, ht2])
        simp only [List.length_cons]
        omega
    · rw [if_neg hc]
      intro h
      simp at h

/-- Left-to-right scan of `re.sub(r"( [-.,_])+", r"\1", s)`: a maximal
run of `space delimiter` units is replaced by its last unit. -/
def collapseDelimRuns : List Char → List Char
  | [] => []
  | c :: rest =>
    match hm : takeUnits (c :: rest) with
    | some (d, t) => ' ' :: d :: collapseDelimRuns t
    | Option.none => c :: collapseDelimRuns rest
termination_by l => l.length
decreasing_by
  · have := takeUnits_length _ _ _ hm
    simp only [List.length_cons] at this ⊢
    omega
  · simp only [List.length_cons]
    omega

theorem collapseDelimRuns_length (l : List Char) :
    (collapseDelimRuns l).length ≤ l.length := by
  induction l using collapseDelimRuns.induct with
  | case1 => simp [collapseDelimRuns]
  | case2 c rest d t hm ih =>
    have h1 := takeUnits_length (c :: rest) d t hm
    rw [collapseDelimRuns]
    split
    · rename_i d2 t2 heq
      have ht2 : t = t2 := by
        have hst := hm.symm.trans heq
        have : (d, t) = (d2, t2) := by simpa using hst
        exact congrArg Prod.snd this
      subst ht2
      simp only [List.length_cons] at h1 ⊢
      omega
    · rename_i heq
      rw [hm] at heq
      simp at heq
  | case3 c rest hm ih =>
    rw [collapseDelimRuns]
    split
    · rename_i d2 t2 heq
      rw [hm] at heq
      simp at heq
    · simp only [List.length_cons]
      omega

/-- Python `s.strip(chars)` for a one-predicate character class: drop
matching characters from both ends. -/
def pyStripPred (p : Char → Bool) (l : List Char) : List Char :=
  ((l.dropWhile p).reverse.dropWhile p).reverse

theorem pyStripPred_length (p : Char → Bool) (l : List Char) :
    (pyStripPred p l).length ≤ l.length := by
  unfold pyStripPred
  rw [List.length_reverse]
  have h1 : ((l.dropWhile p).reverse.dropWhile p).length ≤ (l.dropWhile p).reverse.length :=
    (List.dropWhile_sublist p).length_le
  rw [List.length_reverse] at h1
  have h2 : (l.dropWhile p).length ≤ l.length := (List.dropWhile_sublist p).length_le
  omega

/-- One cleanup pass of `str_fix_padding`: remove empty brackets,
collapse dash runs, collapse whitespace runs, collapse repeated
space-delimiter units, then strip whitespace and dashes from the ends. -/
def fixPass (s : List Char) : List Char :=
  let s1 := subEmptyBrackets '(' ')' s
  let s2 := subEmptyBrackets '[' ']' s1
  let s3 := collapseRuns (fun c => c == '-') '-' s2
  let s4 := collapseRuns pyIsSpace ' ' s3
  let s5 := collapseDelimRuns s4
  let s6 := pyStripPred pyIsSpace s5
  pyStripPred (fun c => c == '-') s6

theorem fixPass_length (s : List Char) : (fixPass s).length ≤ s.length := by
  unfold fixPass
  exact le_trans (pyStripPred_length _ _)
    (le_trans (pyStripPred_length _ _)
      (le_trans (collapseDelimRuns_length _)
        (le_trans (collapseRuns_length _ _ _)
          (le_trans (collapseRuns_length _ _ _)
            (le_trans (subEmptyBrackets_length _ _ _)
              (subEmptyBrackets_length _ _ _))))))

/-- Function `str_fix_padding` from the source: run the cleanup pass and
recurse while the pass changed the string's length. -/
def str_fix_padding (s : List Char) : List Char :=
  if h : s.length = (fixPass s).length then fixPass s
  else str_fix_padding (fixPass s)
termination_by s.length
decreasing_by
  have := fixPass_length s
  omega

/-- Claim C9: `str_fix_padding` terminates on every input.  No cleanup
pass increases the length, the function recurses only when the pass
changed the length, and then the recursive call receives a strictly
shorter string; the recursion equation restates the source's
`return s if len_before == len_after else str_fix_padding(s)`. -/
theorem str_fix_padding_terminates (s : List Char) :
    (fixPass s).length ≤ s.length ∧
    (s.length = (fixPass s).length ∨ (fixPass s).length < s.length) ∧
    str_fix_padding s =
      (if s.length = (fixPass s).length then fixPass s
       else str_fix_padding (fixPass s)) := by
  refine ⟨fixPass_length s, ?_, ?_⟩
  · have := fixPass_length s
    omega
  · rw [str_fix_padding]
    simp only [dite_eq_ite]

/-- Function `normalize_container` from the source: `assert container`
raises on the empty string (modelled as `Except.error`); a leading dot
is added when missing and the result is lowercased. -/
def normalize_container (container : List Char) : Except String (List Char) :=
  if container = [] then Except.error "AssertionError"
  else
    let c2 := if container ≠ [] ∧ container.headD ' ' ≠ '.' then '.' :: container
      else container
    Except.ok (c2.map pyLower)

/-- Claim C10: for every non-empty container string the function
returns (without error) a lowercase string beginning with "."; on the
empty string the assertion fails, and under the non-empty precondition
the emptiness test inside the dot-prepending guard is redundant. -/
theorem normalize_container_spec (c : List Char) :
    (c ≠ [] → ∃ r, normalize_container c = Except.ok r ∧ r ≠ [] ∧
      r.headD ' ' = '.' ∧ r.map pyLower = r) ∧
    normalize_container [] = Except.error "AssertionError" ∧
    (c ≠ [] → ((c ≠ [] ∧ c.headD ' ' ≠ '.') ↔ c.headD ' ' ≠ '.')) := by
  refine ⟨?_, by simp [normalize_container], ?_⟩
  · intro h
    unfold normalize_container
    rw [if_neg h]
    by_cases hdot : c.headD ' ' ≠ '.'
    · refine ⟨('.' :: c).map pyLower, ?_, ?_, ?_, ?_⟩
      · rw [if_pos ⟨h, hdot⟩]
      · simp
      · have hd : pyLower '.' = '.' := rfl
        simp [hd]
      · exact map_pyLower_idem ('.' :: c)
    · refine ⟨c.map pyLower, ?_, ?_, ?_, ?_⟩
      · rw [if_neg (by tauto)]
      · simpa using h
      · cases c with
        | nil => exact absurd rfl h
        | cons a as =>
          have ha : a = '.' := by simpa using hdot
          subst ha
          have hd : pyLower '.' = '.' := rfl
          simp [hd]
      · exact map_pyLower_idem c
  · intro h
    constructor
    · intro hand
      exact hand.2
    · intro hdot
      exact ⟨h, hdot⟩

theorem normalize_container_spec_witness :
    (∃ r, normalize_container ("MP4".data) = Except.ok r ∧ r ≠ [] ∧
      r.headD ' ' = '.' ∧ r.map pyLower = r) ∧
    (("MP4".data ≠ [] ∧ "MP4".data.headD ' ' ≠ '.') ↔ "MP4".data.headD ' ' ≠ '.') :=
  ⟨(normalize_container_spec ("MP4".data)).1 (by decide),
   (normalize_container_spec ("MP4".data)).2.2 (by decide)⟩

/-- Python `str.strip()` (no argument) over the character-list model. -/
def pyStrip (l : List Char) : List Char := pyStripPred pyIsSpace l

/-- The input type of `year_range_parse`: `Optional[Union[str, int]]`. -/
inductive YearsInput where
  | str (s : String)
  | int (n : Int)
  | none

/-- Python `str(years)` for the three input shapes (`str(None)` is the
four-character string "None"). -/
def yearsToChars : YearsInput → List Char
  | .str s => s.data
  | .int n => (toString n).data
  | .none => "None".data

/-- Matcher for `(?:19|20)\d{2}` against exactly four characters. -/
def isYear4 (l : List Char) : Bool :=
  match l with
  | [a, b, c, d] =>
    ((a = '1' && b = '9') || (a = '2' && b = '0')) && c.isDigit && d.isDigit
  | _ => false

/-- Python `int(...)` applied to a year capture (digits to value). -/
def yearVal (l : List Char) : Int :=
  l.foldl (fun acc c => 10 * acc + ((c.toNat : Int) - 48)) 0

/-- The delimiter class `[-,: ]` of the year-range regex. -/
def isDelimChar (c : Char) : Bool :=
  c = '-' || c = ',' || c = ':' || c = ' '

/-- Deterministic parse of the anchored regex
`^((?:19|20)\d{2})?([-,: ]*)?((?:19|20)\d{2})?$`.  Group 2 always
participates when the match succeeds (capturing "" when no delimiter
characters are present); the greedy left-to-right strategy needs no
backtracking because year captures are exactly four characters starting
with a digit and the delimiter class contains no digit.  Returns the
three captures, or `none` when the whole string does not match. -/
def pyMatchYears (t : List Char) :
    Option (Option (List Char) × List Char × Option (List Char)) :=
  let g1 : Option (List Char) :=
    if isYear4 (t.take 4) then some (t.take 4) else Option.none
  let r1 := if isYear4 (t.take 4) then t.drop 4 else t
  let g2 := r1.takeWhile isDelimChar
  let r2 := r1.dropWhile isDelimChar
  let g3 : Option (List Char) := if isYear4 r2 then some r2 else Option.none
  let r3 := if isYear4 r2 then ([] : List Char) else r2
  if r3 = [] then some (g1, g2, g3) else Option.none

/-- Modelled from the spec: `CURRENT_YEAR` lives in `mnamer/const.py`,
which is not among the sources; the spec describes it as "a current
calendar year value supplied by the calling environment (system
clock)", so the embedding takes it as the explicit parameter
`currentYear`.  This is the body of `year_range_parse` before the
tolerance is applied: the failed-match (`AttributeError`) and the
no-capture cases yield the defaults with a truthy `dash`, and an empty
captured delimiter forces `end = start`. -/
def year_range_core (currentYear : Int) (years : YearsInput) : Int × Int :=
  let default_start : Int := 1900
  let default_end : Int := currentYear
  match pyMatchYears (pyStrip (yearsToChars years)) with
  | Option.none => (default_start, default_end)
  | some (g1, g2, g3) =>
    if g1 = Option.none ∧ g3 = Option.none then (default_start, default_end)
    else
      let start := match g1 with
        | some l => yearVal l
        | Option.none => default_start
      let stop := match g3 with
        | some l => yearVal l
        | Option.none => default_end
      let stop := if g2 = [] then start else stop
      (start, stop)

/-- Function `year_range_parse` from the source: parse, then widen by
the tolerance on both sides (`start - tolerance, end + tolerance`). -/
def year_range_parse (currentYear : Int) (years : YearsInput)
    (tolerance : Int) : Int × Int :=
  let p := year_range_core currentYear years
  (p.1 - tolerance, p.2 + tolerance)

/-- Decides whether some four-character substring of `t` matches
`(?:19|20)\d{2}`. -/
def hasYearSub (t : List Char) : Bool :=
  (List.range (t.length + 1)).any (fun i => isYear4 ((t.drop i).take 4))

theorem dropWhile_eq_drop (p : Char → Bool) (l : List Char) :
    ∃ i, i ≤ l.length ∧ l.dropWhile p = l.drop i := by
  induction l with
  | nil => exact ⟨0, by simp⟩
  | cons a as ih =>
    by_cases h : p a
    · obtain ⟨i, hi, he⟩ := ih
      exact ⟨i + 1, by simpa using hi, by simpa [List.dropWhile_cons, h] using he⟩
    · exact ⟨0, by simp, by simp [List.dropWhile_cons, h]⟩

theorem isYear4_length : ∀ {l : List Char}, isYear4 l = true → l.length = 4
  | [_, _, _, _], _ => rfl
  | [], h => by simp [isYear4] at h
  | [_], h => by simp [isYear4] at h
  | [_, _], h => by simp [isYear4] at h
  | [_, _, _], h => by simp [isYear4] at h
  | _ :: _ :: _ :: _ :: _ :: _, h => by simp [isYear4] at h

/-- When the year-range regex matches with at least one year captured,
the input has a year substring. -/
theorem pyMatchYears_some_year {t : List Char} {g1 g3 : Option (List Char)}
    {g2 : List Char} (h : pyMatchYears t = some (g1, g2, g3))
    (hne : ¬ (g1 = Option.none ∧ g3 = Option.none)) :
    hasYearSub t = true := by
  by_cases hy1 : isYear4 (t.take 4)
  · unfold hasYearSub
    rw [List.any_eq_true]
    exact ⟨0, by simp, by simpa using hy1⟩
  · by_cases hy2 : isYear4 (t.dropWhile isDelimChar)
    · obtain ⟨i, hi, he⟩ := dropWhile_eq_drop isDelimChar t
      rw [he] at hy2
      have h4 := isYear4_length hy2
      unfold hasYearSub
      rw [List.any_eq_true]
      refine ⟨i, by simpa using by omega, ?_⟩
      rw [List.take_of_length_le (le_of_eq h4)]
      exact hy2
    · exfalso
      apply hne
      by_cases hr : t.dropWhile isDelimChar = []
      · simp [pyMatchYears, hy1, hy2, hr] at h
        exact ⟨h.1.symm, h.2.2.symm⟩
      · simp [pyMatchYears, hy1, hy2, hr] at h

/-- When the stripped input has no year substring, the parse falls back
to the defaults `(1900, current year)`. -/
theorem year_range_core_noYear (cy : Int) {y : YearsInput}
    (h : hasYearSub (pyStrip (yearsToChars y)) = false) :
    year_range_core cy y = (1900, cy) := by
  cases hm : pyMatchYears (pyStrip (yearsToChars y)) with
  | none => simp [year_range_core, hm]
  | some g =>
    obtain ⟨g1, g2, g3⟩ := g
    have hgn : g1 = Option.none ∧ g3 = Option.none := by
      by_contra hcon
      have := pyMatchYears_some_year hm hcon
      rw [h] at this
      exact Bool.false_ne_true this
    simp [year_range_core, hm, hgn.1, hgn.2]

/-- Claim C3: `year_range_parse` is total by construction (the failed
`re.match` / `AttributeError` path is the `Option.none` branch of the
embedding, handled inside the function); whenever the stripped input
contains no 1900-2099 year — empty, `None`, or malformed text — it
returns the default range `(1900 - tolerance, current_year + tolerance)`,
and in particular `year_range_parse(None, 1) = (1899, current_year + 1)`. -/
theorem year_range_parse_total (cy tol : Int) (y : YearsInput) :
    (hasYearSub (pyStrip (yearsToChars y)) = false →
      year_range_parse cy y tol = (1900 - tol, cy + tol)) ∧
    year_range_parse cy YearsInput.none 1 = (1899, cy + 1) := by
  constructor
  · intro h
    unfold year_range_parse
    rw [year_range_core_noYear cy h]
  · unfold year_range_parse
    rw [year_range_core_noYear cy (by decide)]
    norm_num

theorem year_range_parse_total_witness :
    year_range_parse 2026 (YearsInput.str "mnamer") 1 = (1899, 2027) ∧
    year_range_parse 2026 YearsInput.none 1 = (1899, 2027) := by
  constructor
  · have h := (year_range_parse_total 2026 1 (YearsInput.str "mnamer")).1 (by decide)
    norm_num at h
    exact h
  · exact (year_range_parse_total 2026 1 YearsInput.none).2

/-- Claim C2 counterexample: for the input "2015-1999" (a range given
in decreasing order) with the default tolerance 1, the code returns
(2014, 2000), whose first component exceeds the second — the claimed
invariant `a ≤ b` fails. -/
theorem year_range_parse_order_cex :
    year_range_parse 2026 (YearsInput.str "2015-1999") 1 = (2014, 2000) ∧
    ¬ ((year_range_parse 2026 (YearsInput.str "2015-1999") 1).1 ≤
        (year_range_parse 2026 (YearsInput.str "2015-1999") 1).2) := by
  constructor
  · decide
  · decide

/-- Claim C2 (amended): with the default tolerance 1 the returned pair
is the pre-tolerance pair widened by one on each side, so `a ≤ b` holds
whenever the pre-tolerance start does not exceed the pre-tolerance end;
that covers single years (no delimiter captured forces `end = start`)
and no-year inputs (default full-century range, ordered whenever the
current year is at least 1899).  Inputs that parse to a decreasing
range, such as "2015-1999", violate `a ≤ b`. -/
theorem year_range_parse_order (cy : Int) (y : YearsInput) :
    ((year_range_core cy y).1 ≤ (year_range_core cy y).2 →
      (year_range_parse cy y 1).1 ≤ (year_range_parse cy y 1).2) ∧
    (∀ g1 g3 : Option (List Char), ∀ g2 : List Char,
      pyMatchYears (pyStrip (yearsToChars y)) = some (g1, g2, g3) →
      g2 = [] → ¬ (g1 = Option.none ∧ g3 = Option.none) →
      (year_range_core cy y).1 = (year_range_core cy y).2) ∧
    (hasYearSub (pyStrip (yearsToChars y)) = false → 1899 ≤ cy →
      (year_range_parse cy y 1).1 ≤ (year_range_parse cy y 1).2 ∧
      year_range_parse cy y 1 = (1899, cy + 1)) := by
  refine ⟨?_, ?_, ?_⟩
  · intro h
    show (year_range_core cy y).1 - 1 ≤ (year_range_core cy y).2 + 1
    omega
  · intro g1 g3 g2 hm hg2 hne
    subst hg2
    simp [year_range_core, hm, if_neg hne]
  · intro h hcy
    have he := year_range_core_noYear cy h
    constructor
    · show (year_range_core cy y).1 - 1 ≤ (year_range_core cy y).2 + 1
      rw [he]
      simp
      omega
    · show ((year_range_core cy y).1 - 1, (year_range_core cy y).2 + 1) = (1899, cy + 1)
      rw [he]
      norm_num

theorem year_range_parse_order_witness :
    ((year_range_parse 2026 (YearsInput.str "2010-2015") 1).1 ≤
      (year_range_parse 2026 (YearsInput.str "2010-2015") 1).2) ∧
    ((year_range_core 2026 (YearsInput.str "2010")).1 =
      (year_range_core 2026 (YearsInput.str "2010")).2) ∧
    ((year_range_parse 2026 (YearsInput.str "mnamer!") 1).1 ≤
      (year_range_parse 2026 (YearsInput.str "mnamer!") 1).2) := by
  refine ⟨?_, ?_, ?_⟩
  · exact (year_range_parse_order 2026 (YearsInput.str "2010-2015")).1 (by decide)
  · exact (year_range_parse_order 2026 (YearsInput.str "2010")).2.1
      (some ['2', '0', '1', '0']) Option.none [] (by decide) rfl (by decide)
  · exact ((year_range_parse_order 2026 (YearsInput.str "mnamer!")).2.2
      (by decide) (by decide)).1

theorem digit_not_space {c : Char} (h : c.isDigit = true) : pyIsSpace c = false := by
  by_contra hcon
  have hsp : pyIsSpace c = true := by
    cases hps : pyIsSpace c
    · exact absurd hps hcon
    · rfl
  unfold pyIsSpace at hsp
  simp only [Bool.or_eq_true, decide_eq_true_eq] at hsp
  rcases hsp with ((((h1 | h1) | h1) | h1) | h1) | h1 <;>
    (subst h1; exact absurd h (by decide))

theorem isYear4_parts {c1 c2 c3 c4 : Char} (h : isYear4 [c1, c2, c3, c4] = true) :
    ((c1 = '1' ∧ c2 = '9') ∨ (c1 = '2' ∧ c2 = '0')) ∧
      c3.isDigit = true ∧ c4.isDigit = true := by
  simpa [isYear4, Bool.and_eq_true, Bool.or_eq_true, decide_eq_true_eq,
    and_assoc] using h

theorem delim_cases {d : Char} (hd : isDelimChar d = true) :
    d = '-' ∨ d = ',' ∨ d = ':' ∨ d = ' ' := by
  simp only [isDelimChar, Bool.or_eq_true, decide_eq_true_eq] at hd
  tauto

theorem delim_not_year_start {d : Char} (hd : isDelimChar d = true)
    (x y z : Char) : isYear4 [d, x, y, z] = false := by
  rcases delim_cases hd with h | h | h | h <;> (subst h; simp [isYear4])

theorem year_start_not_delim {c : Char} (h : c = '1' ∨ c = '2') :
    isDelimChar c = false := by
  rcases h with h | h <;> (subst h; decide)

theorem year_start_not_space {c : Char} (h : c = '1' ∨ c = '2') :
    pyIsSpace c = false := by
  rcases h with h | h <;> (subst h; decide)

/-- Stripping is the identity when both end characters are not
whitespace. -/
theorem pyStrip_of_ends (a : Char) (mid : List Char) (b : Char)
    (ha : pyIsSpace a = false) (hb : pyIsSpace b = false) :
    pyStrip (a :: (mid ++ [b])) = a :: (mid ++ [b]) := by
  unfold pyStrip pyStripPred
  rw [List.dropWhile_cons_of_neg (by simp [ha])]
  rw [show (a :: (mid ++ [b])).reverse = b :: (mid.reverse ++ [a]) from by simp]
  rw [List.dropWhile_cons_of_neg (by simp [hb])]
  simp

theorem year_start_or {c1 c2 c3 c4 : Char} (h : isYear4 [c1, c2, c3, c4] = true) :
    c1 = '1' ∨ c1 = '2' := by
  rcases (isYear4_parts h).1 with ⟨ha, _⟩ | ⟨ha, _⟩
  · exact Or.inl ha
  · exact Or.inr ha

theorem pyMatchYears_single {c1 c2 c3 c4 : Char}
    (h : isYear4 [c1, c2, c3, c4] = true) :
    pyMatchYears [c1, c2, c3, c4] = some (some [c1, c2, c3, c4], [], Option.none) := by
  have hta : ([c1, c2, c3, c4] : List Char).take 4 = [c1, c2, c3, c4] := rfl
  have htd : ([c1, c2, c3, c4] : List Char).drop 4 = [] := rfl
  have h0 : isYear4 ([] : List Char) = false := rfl
  simp [pyMatchYears, hta, htd, h, h0]

theorem pyMatchYears_year_delim {c1 c2 c3 c4 d : Char}
    (h : isYear4 [c1, c2, c3, c4] = true) (hd : isDelimChar d = true) :
    pyMatchYears [c1, c2, c3, c4, d] =
      some (some [c1, c2, c3, c4], [d], Option.none) := by
  have hta : ([c1, c2, c3, c4, d] : List Char).take 4 = [c1, c2, c3, c4] := rfl
  have htd : ([c1, c2, c3, c4, d] : List Char).drop 4 = [d] := rfl
  have h0 : isYear4 ([] : List Char) = false := rfl
  have htw : ([d] : List Char).takeWhile isDelimChar = [d] := by
    rw [List.takeWhile_cons_of_pos hd]
    rfl
  have hdw : ([d] : List Char).dropWhile isDelimChar = [] :=
    List.dropWhile_cons_of_pos hd
  simp [pyMatchYears, hta, htd, h, h0, htw, hdw]

theorem pyMatchYears_delim_year {c1 c2 c3 c4 d : Char}
    (h : isYear4 [c1, c2, c3, c4] = true) (hd : isDelimChar d = true) :
    pyMatchYears [d, c1, c2, c3, c4] =
      some (Option.none, [d], some [c1, c2, c3, c4]) := by
  have hta : ([d, c1, c2, c3, c4] : List Char).take 4 = [d, c1, c2, c3] := rfl
  have hy1 : isYear4 [d, c1, c2, c3] = false := delim_not_year_start hd c1 c2 c3
  have hc1 : isDelimChar c1 = false := year_start_not_delim (year_start_or h)
  have htw : ([d, c1, c2, c3, c4] : List Char).takeWhile isDelimChar = [d] := by
    rw [List.takeWhile_cons_of_pos hd, List.takeWhile_cons_of_neg (by simp [hc1])]
  have hdw : ([d, c1, c2, c3, c4] : List Char).dropWhile isDelimChar
      = [c1, c2, c3, c4] := by
    rw [List.dropWhile_cons_of_pos hd, List.dropWhile_cons_of_neg (by simp [hc1])]
  simp [pyMatchYears, hta, hy1, htw, hdw, h]

theorem year_range_core_single {cy : Int} {c1 c2 c3 c4 : Char}
    (h : isYear4 [c1, c2, c3, c4] = true) :
    year_range_core cy (YearsInput.str ⟨[c1, c2, c3, c4]⟩) =
      (yearVal [c1, c2, c3, c4], yearVal [c1, c2, c3, c4]) := by
  have hstrip : pyStrip [c1, c2, c3, c4] = [c1, c2, c3, c4] := by
    have := pyStrip_of_ends c1 [c2, c3] c4
      (year_start_not_space (year_start_or h))
      (digit_not_space (isYear4_parts h).2.2)
    simpa using this
  have hy : yearsToChars (YearsInput.str ⟨[c1, c2, c3, c4]⟩) = [c1, c2, c3, c4] := rfl
  have hm := pyMatchYears_single h
  simp [year_range_core, hy, hstrip, hm]

theorem year_range_core_open_end {cy : Int} {c1 c2 c3 c4 d : Char}
    (h : isYear4 [c1, c2, c3, c4] = true) (hd : isDelimChar d = true)
    (hds : pyIsSpace d = false) :
    year_range_core cy (YearsInput.str ⟨[c1, c2, c3, c4, d]⟩) =
      (yearVal [c1, c2, c3, c4], cy) := by
  have hstrip : pyStrip [c1, c2, c3, c4, d] = [c1, c2, c3, c4, d] := by
    have := pyStrip_of_ends c1 [c2, c3, c4] d
      (year_start_not_space (year_start_or h)) hds
    simpa using this
  have hy : yearsToChars (YearsInput.str ⟨[c1, c2, c3, c4, d]⟩)
      = [c1, c2, c3, c4, d] := rfl
  have hm := pyMatchYears_year_delim h hd
  simp [year_range_core, hy, hstrip, hm]

theorem year_range_core_open_start {cy : Int} {c1 c2 c3 c4 d : Char}
    (h : isYear4 [c1, c2, c3, c4] = true) (hd : isDelimChar d = true)
    (hds : pyIsSpace d = false) :
    year_range_core cy (YearsInput.str ⟨[d, c1, c2, c3, c4]⟩) =
      (1900, yearVal [c1, c2, c3, c4]) := by
  have hstrip : pyStrip [d, c1, c2, c3, c4] = [d, c1, c2, c3, c4] := by
    have := pyStrip_of_ends d [c1, c2, c3] c4
      hds (digit_not_space (isYear4_parts h).2.2)
    simpa using this
  have hy : yearsToChars (YearsInput.str ⟨[d, c1, c2, c3, c4]⟩)
      = [d, c1, c2, c3, c4] := rfl
  have hm := pyMatchYears_delim_year h hd
  simp [year_range_core, hy, hstrip, hm]

/-- Claim C6: a single four-digit year 1900-2099 with no delimiter
captures an empty group 2, which is falsy, so `end` is forced equal to
`start` and the result is `(Y - tolerance, Y + tolerance)`; in
particular `year_range_parse("2010")` with the default tolerance 1 is
`(2009, 2011)`. -/
theorem year_range_parse_single_year (cy tol : Int) (c1 c2 c3 c4 : Char)
    (h : isYear4 [c1, c2, c3, c4] = true) :
    year_range_parse cy (YearsInput.str ⟨[c1, c2, c3, c4]⟩) tol =
      (yearVal [c1, c2, c3, c4] - tol, yearVal [c1, c2, c3, c4] + tol) ∧
    year_range_parse cy (YearsInput.str "2010") 1 = (2009, 2011) := by
  constructor
  · show ((year_range_core cy (YearsInput.str ⟨[c1, c2, c3, c4]⟩)).1 - tol,
        (year_range_core cy (YearsInput.str ⟨[c1, c2, c3, c4]⟩)).2 + tol) =
      (yearVal [c1, c2, c3, c4] - tol, yearVal [c1, c2, c3, c4] + tol)
    rw [year_range_core_single h]
  · show ((year_range_core cy (YearsInput.str "2010")).1 - 1,
        (year_range_core cy (YearsInput.str "2010")).2 + 1) = (2009, 2011)
    have hcore : year_range_core cy (YearsInput.str "2010") =
        (yearVal ['2', '0', '1', '0'], yearVal ['2', '0', '1', '0']) :=
      year_range_core_single (by decide)
    rw [hcore]
    decide

theorem year_range_parse_single_year_witness :
    year_range_parse 2026 (YearsInput.str ⟨['2', '0', '1', '0']⟩) 3 = (2007, 2013) ∧
    year_range_parse 2026 (YearsInput.str "2010") 1 = (2009, 2011) := by
  have h := year_range_parse_single_year 2026 3 '2' '0' '1' '0' (by decide)
  refine ⟨?_, h.2⟩
  rw [h.1]
  decide

/-- Claim C7: when a (non-stripped) delimiter is captured but one year
is missing, the missing side is filled with its default — 1900 for the
start, the current year for the end; in particular
`year_range_parse("1999-", 1) = (1998, current_year + 1)`. -/
theorem year_range_parse_open_range (cy tol : Int) (c1 c2 c3 c4 d : Char)
    (h : isYear4 [c1, c2, c3, c4] = true) (hd : isDelimChar d = true)
    (hds : pyIsSpace d = false) :
    year_range_parse cy (YearsInput.str ⟨[c1, c2, c3, c4, d]⟩) tol =
      (yearVal [c1, c2, c3, c4] - tol, cy + tol) ∧
    year_range_parse cy (YearsInput.str ⟨[d, c1, c2, c3, c4]⟩) tol =
      (1900 - tol, yearVal [c1, c2, c3, c4] + tol) ∧
    year_range_parse cy (YearsInput.str "1999-") 1 = (1998, cy + 1) := by
  refine ⟨?_, ?_, ?_⟩
  · show ((year_range_core cy (YearsInput.str ⟨[c1, c2, c3, c4, d]⟩)).1 - tol,
        (year_range_core cy (YearsInput.str ⟨[c1, c2, c3, c4, d]⟩)).2 + tol) =
      (yearVal [c1, c2, c3, c4] - tol, cy + tol)
    rw [year_range_core_open_end h hd hds]
  · show ((year_range_core cy (YearsInput.str ⟨[d, c1, c2, c3, c4]⟩)).1 - tol,
        (year_range_core cy (YearsInput.str ⟨[d, c1, c2, c3, c4]⟩)).2 + tol) =
      (1900 - tol, yearVal [c1, c2, c3, c4] + tol)
    rw [year_range_core_open_start h hd hds]
  · show ((year_range_core cy (YearsInput.str "1999-")).1 - 1,
        (year_range_core cy (YearsInput.str "1999-")).2 + 1) = (1998, cy + 1)
    have hcore : year_range_core cy (YearsInput.str "1999-") =
        (yearVal ['1', '9', '9', '9'], cy) :=
      year_range_core_open_end (by decide) (by decide) (by decide)
    rw [hcore]
    have hv : yearVal ['1', '9', '9', '9'] = 1999 := by decide
    rw [hv]
    norm_num

theorem year_range_parse_open_range_witness :
    year_range_parse 2026 (YearsInput.str ⟨['1', '9', '9', '9', '-']⟩) 1 = (1998, 2027) ∧
    year_range_parse 2026 (YearsInput.str ⟨['-', '2', '0', '1', '0']⟩) 1 = (1899, 2011) ∧
    year_range_parse 2026 (YearsInput.str "1999-") 1 = (1998, 2027) := by
  have h1 := year_range_parse_open_range 2026 1 '1' '9' '9' '9' '-'
    (by decide) (by decide) (by decide)
  have h2 := year_range_parse_open_range 2026 1 '2' '0' '1' '0' '-'
    (by decide) (by decide) (by decide)
  refine ⟨?_, ?_, h1.2.2⟩
  · rw [h1.1]
    decide
  · rw [h2.2.1]
    decide

/-- Python `str.lower` on a single character as a character-to-string
map, keeping the one-to-many entries of the Unicode case database that
the sources can exhibit: LATIN CAPITAL LETTER I WITH DOT ABOVE lowers to
"i" plus COMBINING DOT ABOVE (two characters).  Exact on ASCII; other
code points (where the embedding is never evaluated) are kept fixed. -/
def pyLowerU (c : Char) : List Char :=
  if c = 'İ' then ['i', Char.ofNat 775]
  else if 65 ≤ c.toNat ∧ c.toNat ≤ 90 then [Char.ofNat (c.toNat + 32)] else [c]

/-- Python `str.upper` on a single character as a character-to-string
map: LATIN SMALL LETTER SHARP S uppercases to "SS" (two characters).
Exact on ASCII; other code points are kept fixed. -/
def pyUpperU (c : Char) : List Char :=
  if c = 'ß' then ['S', 'S']
  else if 97 ≤ c.toNat ∧ c.toNat ≤ 122 then [Char.ofNat (c.toNat - 32)] else [c]

/-- Python `str.lower` on a whole string (concatenating the per-character
images, so the result can be longer than the input). -/
def strLowerU : List Char → List Char
  | [] => []
  | c :: cs => pyLowerU c ++ strLowerU cs

/-- Python `str.upper` on a whole string. -/
def strUpperU : List Char → List Char
  | [] => []
  | c :: cs => pyUpperU c ++ strUpperU cs

/-- The padding pass of `str_title_case` with the string-valued case
map (`s[pos+1].upper()` may be two characters). -/
def padInnerU (len : Nat) : List Nat → List Char → List Char
  | [], s => s
  | p :: ps, s =>
    if p + 1 = len then s
    else if p + 2 < len then
      padInnerU len ps
        (s.take (p + 1) ++ pyUpperU (s.getD (p + 1) ' ') ++ s.drop (p + 2))
    else
      padInnerU len ps (s.take (p + 1) ++ pyUpperU (s.getD (p + 1) ' '))

def padLoopU (len : Nat) : List Char → List Char → List Char
  | [], s => s
  | c :: cs, s => padLoopU len cs (padInnerU len (findall s [c]) s)

/-- The parenthesis pass with the string-valued case map. -/
def parenInnerU (len : Nat) : List Nat → List Char → List Char
  | [], s => s
  | p :: ps, s =>
    if 0 < p ∧ ¬ (s.getD (p - 1) ' ' ∈ padding_chars) then
      parenInnerU len ps s
    else if p + 1 < len then
      parenInnerU len ps
        (s.take (p + 1) ++ pyUpperU (s.getD (p + 1) ' ') ++ s.drop (p + 2))
    else
      parenInnerU len ps s

def parenLoopU (len : Nat) : List Char → List Char → List Char
  | [], s => s
  | c :: cs, s => parenLoopU len cs (parenInnerU len (findall s [c]) s)

/-- The lowercase-exception pass (`exception.lower()` written with the
string-valued case map), with the source's `break` at positions < 2. -/
def lcInnerU (sl : List Char) (len : Nat) (exc : List Char) :
    List Nat → List Char → List Char
  | [], s => s
  | p :: ps, s =>
    if p < 2 then s
    else
      if (sl.getD (p - 1) ' ' ∈ padding_chars) ∧
          (¬ p + exc.length = len ∧ sl.getD (p + exc.length) ' ' ∈ padding_chars) then
        lcInnerU sl len exc ps
          (s.take p ++ strLowerU exc ++ s.drop (p + exc.length))
      else lcInnerU sl len exc ps s

def lcLoopU (sl : List Char) (len : Nat) : List (List Char) → List Char → List Char
  | [], s => s
  | e :: es, s => lcLoopU sl len es (lcInnerU sl len e (findall sl e) s)

/-- The uppercase-exception pass with the string-valued case map. -/
def ucInnerU (sl : List Char) (len : Nat) (exc : List Char) :
    List Nat → List Char → List Char
  | [], s => s
  | p :: ps, s =>
    if (p = 0 ∨ sl.getD (p - 1) ' ' ∈ padding_chars ++ punctuation_chars) ∧
        (p + exc.length = len ∨
          sl.getD (p + exc.length) ' ' ∈ padding_chars ++ punctuation_chars) then
      ucInnerU sl len exc ps
        (s.take p ++ strUpperU exc ++ s.drop (p + exc.length))
    else ucInnerU sl len exc ps s

def ucLoopU (sl : List Char) (len : Nat) : List (List Char) → List Char → List Char
  | [], s => s
  | e :: es, s => ucLoopU sl len es (ucInnerU sl len e (findall sl e) s)

/-- Body of `str_title_case` with Python's string-valued case maps:
`string_lower = s.lower()` and `string_length = len(s)` are computed
from the original string (so `string_length` can differ from the length
of the working copy when a case map expands), then
`s = s.lower(); s = s[0].upper() + s[1:]` and the four passes run. -/
def titleCoreU (s0 : List Char) : List Char :=
  let string_lower := strLowerU s0
  let string_length := s0.length
  let s1 := strLowerU s0
  let s2 := match s1 with
    | [] => s1
    | c :: cs => pyUpperU c ++ cs
  let s3 := padLoopU string_length padding_chars s2
  let s4 := parenLoopU string_length paren_chars s3
  let s5 := lcLoopU string_lower string_length lowercase_exceptions s4
  ucLoopU string_lower string_length uppercase_exceptions s5

/-- Function `str_title_case` over the string-valued (one-to-many) case
model; on ASCII inputs it agrees with the per-character model
`str_title_case` (proved below). -/
def str_title_case_u (s : String) : String :=
  if s.data = [] then s else ⟨titleCoreU s.data⟩

theorem pyLower_lt_128 {c : Char} (h : c.toNat < 128) : (pyLower c).toNat < 128 := by
  unfold pyLower
  by_cases hr : 65 ≤ c.toNat ∧ c.toNat ≤ 90
  · rw [if_pos hr, char_toNat_ofNat_lt (by omega)]
    omega
  · rw [if_neg hr]
    exact h

theorem pyUpper_lt_128 {c : Char} (h : c.toNat < 128) : (pyUpper c).toNat < 128 := by
  unfold pyUpper
  by_cases hr : 97 ≤ c.toNat ∧ c.toNat ≤ 122
  · rw [if_pos hr, char_toNat_ofNat_lt (by omega)]
    omega
  · rw [if_neg hr]
    exact h

theorem lt_128_of_pyLower {c : Char} (h : (pyLower c).toNat < 128) : c.toNat < 128 := by
  by_cases hr : 65 ≤ c.toNat ∧ c.toNat ≤ 90
  · omega
  · unfold pyLower at h
    rw [if_neg hr] at h
    exact h

theorem pyLowerU_ascii {c : Char} (h : c.toNat < 128) : pyLowerU c = [pyLower c] := by
  have hI : ¬ c = 'İ' := by
    intro he
    subst he
    exact absurd h (by decide)
  unfold pyLowerU pyLower
  rw [if_neg hI]
  by_cases hr : 65 ≤ c.toNat ∧ c.toNat ≤ 90
  · rw [if_pos hr, if_pos hr]
  · rw [if_neg hr, if_neg hr]

theorem pyUpperU_ascii {c : Char} (h : c.toNat < 128) : pyUpperU c = [pyUpper c] := by
  have hS : ¬ c = 'ß' := by
    intro he
    subst he
    exact absurd h (by decide)
  unfold pyUpperU pyUpper
  rw [if_neg hS]
  by_cases hr : 97 ≤ c.toNat ∧ c.toNat ≤ 122
  · rw [if_pos hr, if_pos hr]
  · rw [if_neg hr, if_neg hr]

theorem strLowerU_ascii : ∀ {l : List Char}, (∀ c ∈ l, c.toNat < 128) →
    strLowerU l = l.map pyLower := by
  intro l
  induction l with
  | nil => intro _; rfl
  | cons c cs ih =>
    intro h
    show pyLowerU c ++ strLowerU cs = pyLower c :: cs.map pyLower
    rw [pyLowerU_ascii (h c (by simp)), ih (fun x hx => h x (by simp [hx]))]
    rfl

theorem strUpperU_ascii : ∀ {l : List Char}, (∀ c ∈ l, c.toNat < 128) →
    strUpperU l = l.map pyUpper := by
  intro l
  induction l with
  | nil => intro _; rfl
  | cons c cs ih =>
    intro h
    show pyUpperU c ++ strUpperU cs = pyUpper c :: cs.map pyUpper
    rw [pyUpperU_ascii (h c (by simp)), ih (fun x hx => h x (by simp [hx]))]
    rfl

theorem map_pyLower_ascii {l : List Char} (h : ∀ c ∈ l, c.toNat < 128) :
    ∀ c ∈ l.map pyLower, c.toNat < 128 := by
  intro c hc
  rcases List.mem_map.mp hc with ⟨a, ha, rfl⟩
  exact pyLower_lt_128 (h a ha)

theorem map_pyUpper_ascii {l : List Char} (h : ∀ c ∈ l, c.toNat < 128) :
    ∀ c ∈ l.map pyUpper, c.toNat < 128 := by
  intro c hc
  rcases List.mem_map.mp hc with ⟨a, ha, rfl⟩
  exact pyUpper_lt_128 (h a ha)

theorem mem_append_ascii {l1 l2 : List Char}
    (h1 : ∀ c ∈ l1, c.toNat < 128) (h2 : ∀ c ∈ l2, c.toNat < 128) :
    ∀ c ∈ l1 ++ l2, c.toNat < 128 := by
  intro c hc
  rcases List.mem_append.mp hc with hc | hc
  · exact h1 c hc
  · exact h2 c hc

theorem take_ascii {l : List Char} (h : ∀ c ∈ l, c.toNat < 128) (n : Nat) :
    ∀ c ∈ l.take n, c.toNat < 128 :=
  fun c hc => h c (List.take_subset _ _ hc)

theorem drop_ascii {l : List Char} (h : ∀ c ∈ l, c.toNat < 128) (n : Nat) :
    ∀ c ∈ l.drop n, c.toNat < 128 :=
  fun c hc => h c (List.drop_subset _ _ hc)

theorem single_ascii {x : Char} (h : x.toNat < 128) : ∀ c ∈ [x], c.toNat < 128 := by
  intro c hc
  rcases List.mem_singleton.mp hc with rfl
  exact h

theorem getD_lt_128 {s : List Char} (hs : ∀ c ∈ s, c.toNat < 128) (i : Nat) :
    (s.getD i ' ').toNat < 128 := by
  by_cases hi : i < s.length
  · rw [List.getD_eq_getElem _ _ hi]
    exact hs _ (List.getElem_mem hi)
  · have hd : s.getD i ' ' = ' ' := by
      unfold List.getD
      rw [List.get?_eq_none.mpr (by omega)]
      rfl
    rw [hd]
    decide

/-- On ASCII working strings the string-valued padding pass agrees with
the per-character one, and preserves ASCII-ness. -/
theorem padInnerU_eq (len : Nat) : ∀ (ps : List Nat) (s : List Char),
    (∀ c ∈ s, c.toNat < 128) →
    padInnerU len ps s = padInner len ps s ∧
    (∀ c ∈ padInner len ps s, c.toNat < 128) := by
  intro ps
  induction ps with
  | nil =>
    intro s hs
    exact ⟨rfl, by simpa [padInner] using hs⟩
  | cons p ps ih =>
    intro s hs
    by_cases h1 : p + 1 = len
    · refine ⟨?_, ?_⟩
      · rw [padInnerU, padInner, if_pos h1, if_pos h1]
      · rw [padInner, if_pos h1]
        exact hs
    · have hup : pyUpperU (s.getD (p + 1) ' ') = [pyUpper (s.getD (p + 1) ' ')] :=
        pyUpperU_ascii (getD_lt_128 hs (p + 1))
      have hux : (pyUpper (s.getD (p + 1) ' ')).toNat < 128 :=
        pyUpper_lt_128 (getD_lt_128 hs (p + 1))
      by_cases h2 : p + 2 < len
      · have hs2 : ∀ c ∈ s.take (p + 1) ++ [pyUpper (s.getD (p + 1) ' ')] ++ s.drop (p + 2),
            c.toNat < 128 :=
          mem_append_ascii (mem_append_ascii (take_ascii hs _) (single_ascii hux))
            (drop_ascii hs _)
        have hrec := ih _ hs2
        refine ⟨?_, ?_⟩
        · rw [padInnerU, padInner, if_neg h1, if_neg h1, if_pos h2, if_pos h2, hup]
          exact hrec.1
        · rw [padInner, if_neg h1, if_pos h2]
          exact hrec.2
      · have hs2 : ∀ c ∈ s.take (p + 1) ++ [pyUpper (s.getD (p + 1) ' ')], c.toNat < 128 :=
          mem_append_ascii (take_ascii hs _) (single_ascii hux)
        have hrec := ih _ hs2
        refine ⟨?_, ?_⟩
        · rw [padInnerU, padInner, if_neg h1, if_neg h1, if_neg h2, if_neg h2, hup]
          exact hrec.1
        · rw [padInner, if_neg h1, if_neg h2]
          exact hrec.2

theorem parenInnerU_eq (len : Nat) : ∀ (ps : List Nat) (s : List Char),
    (∀ c ∈ s, c.toNat < 128) →
    parenInnerU len ps s = parenInner len ps s ∧
    (∀ c ∈ parenInner len ps s, c.toNat < 128) := by
  intro ps
  induction ps with
  | nil =>
    intro s hs
    exact ⟨rfl, by simpa [parenInner] using hs⟩
  | cons p ps ih =>
    intro s hs
    by_cases h1 : 0 < p ∧ ¬ (s.getD (p - 1) ' ' ∈ padding_chars)
    · have hrec := ih s hs
      refine ⟨?_, ?_⟩
      · rw [parenInnerU, parenInner, if_pos h1, if_pos h1]
        exact hrec.1
      · rw [parenInner, if_pos h1]
        exact hrec.2
    · by_cases h2 : p + 1 < len
      · have hup : pyUpperU (s.getD (p + 1) ' ') = [pyUpper (s.getD (p + 1) ' ')] :=
          pyUpperU_ascii (getD_lt_128 hs (p + 1))
        have hux : (pyUpper (s.getD (p + 1) ' ')).toNat < 128 :=
          pyUpper_lt_128 (getD_lt_128 hs (p + 1))
        have hs2 : ∀ c ∈ s.take (p + 1) ++ [pyUpper (s.getD (p + 1) ' ')] ++ s.drop (p + 2),
            c.toNat < 128 :=
          mem_append_ascii (mem_append_ascii (take_ascii hs _) (single_ascii hux))
            (drop_ascii hs _)
        have hrec := ih _ hs2
        refine ⟨?_, ?_⟩
        · rw [parenInnerU, parenInner, if_neg h1, if_neg h1, if_pos h2, if_pos h2, hup]
          exact hrec.1
        · rw [parenInner, if_neg h1, if_pos h2]
          exact hrec.2
      · have hrec := ih s hs
        refine ⟨?_, ?_⟩
        · rw [parenInnerU, parenInner, if_neg h1, if_neg h1, if_neg h2, if_neg h2]
          exact hrec.1
        · rw [parenInner, if_neg h1, if_neg h2]
          exact hrec.2

theorem lcInnerU_eq (sl : List Char) (len : Nat) {exc : List Char}
    (hexc : ∀ c ∈ exc, c.toNat < 128) : ∀ (ps : List Nat) (s : List Char),
    (∀ c ∈ s, c.toNat < 128) →
    lcInnerU sl len exc ps s = lcInner sl len exc ps s ∧
    (∀ c ∈ lcInner sl len exc ps s, c.toNat < 128) := by
  intro ps
  induction ps with
  | nil =>
    intro s hs
    exact ⟨rfl, by simpa [lcInner] using hs⟩
  | cons p ps ih =>
    intro s hs
    by_cases h1 : p < 2
    · refine ⟨?_, ?_⟩
      · rw [lcInnerU, lcInner, if_pos h1, if_pos h1]
      · rw [lcInner, if_pos h1]
        exact hs
    · by_cases h2 : (sl.getD (p - 1) ' ' ∈ padding_chars) ∧
          (¬ p + exc.length = len ∧ sl.getD (p + exc.length) ' ' ∈ padding_chars)
      · have hlo : strLowerU exc = exc.map pyLower := strLowerU_ascii hexc
        have hs2 : ∀ c ∈ s.take p ++ exc.map pyLower ++ s.drop (p + exc.length),
            c.toNat < 128 :=
          mem_append_ascii (mem_append_ascii (take_ascii hs _) (map_pyLower_ascii hexc))
            (drop_ascii hs _)
        have hrec := ih _ hs2
        refine ⟨?_, ?_⟩
        · rw [lcInnerU, lcInner, if_neg h1, if_neg h1, if_pos h2, if_pos h2, hlo]
          exact hrec.1
        · rw [lcInner, if_neg h1, if_pos h2]
          exact hrec.2
      · have hrec := ih s hs
        refine ⟨?_, ?_⟩
        · rw [lcInnerU, lcInner, if_neg h1, if_neg h1, if_neg h2, if_neg h2]
          exact hrec.1
        · rw [lcInner, if_neg h1, if_neg h2]
          exact hrec.2

theorem ucInnerU_eq (sl : List Char) (len : Nat) {exc : List Char}
    (hexc : ∀ c ∈ exc, c.toNat < 128) : ∀ (ps : List Nat) (s : List Char),
    (∀ c ∈ s, c.toNat < 128) →
    ucInnerU sl len exc ps s = ucInner sl len exc ps s ∧
    (∀ c ∈ ucInner sl len exc ps s, c.toNat < 128) := by
  intro ps
  induction ps with
  | nil =>
    intro s hs
    exact ⟨rfl, by simpa [ucInner] using hs⟩
  | cons p ps ih =>
    intro s hs
    by_cases h1 : (p = 0 ∨ sl.getD (p - 1) ' ' ∈ padding_chars ++ punctuation_chars) ∧
        (p + exc.length = len ∨
          sl.getD (p + exc.length) ' ' ∈ padding_chars ++ punctuation_chars)
    · have hupx : strUpperU exc = exc.map pyUpper := strUpperU_ascii hexc
      have hs2 : ∀ c ∈ s.take p ++ exc.map pyUpper ++ s.drop (p + exc.length),
          c.toNat < 128 :=
        mem_append_ascii (mem_append_ascii (take_ascii hs _) (map_pyUpper_ascii hexc))
          (drop_ascii hs _)
      have hrec := ih _ hs2
      refine ⟨?_, ?_⟩
      · rw [ucInnerU, ucInner, if_pos h1, if_pos h1, hupx]
        exact hrec.1
      · rw [ucInner, if_pos h1]
        exact hrec.2
    · have hrec := ih s hs
      refine ⟨?_, ?_⟩
      · rw [ucInnerU, ucInner, if_neg h1, if_neg h1]
        exact hrec.1
      · rw [ucInner, if_neg h1]
        exact hrec.2

theorem padLoopU_eq (len : Nat) : ∀ (cs : List Char) (s : List Char),
    (∀ c ∈ s, c.toNat < 128) →
    padLoopU len cs s = padLoop len cs s ∧
    (∀ c ∈ padLoop len cs s, c.toNat < 128) := by
  intro cs
  induction cs with
  | nil =>
    intro s hs
    exact ⟨rfl, by simpa [padLoop] using hs⟩
  | cons c cs ih =>
    intro s hs
    have hinner := padInnerU_eq len (findall s [c]) s hs
    refine ⟨?_, ?_⟩
    · rw [padLoopU, padLoop, hinner.1]
      exact (ih _ hinner.2).1
    · rw [padLoop]
      exact (ih _ hinner.2).2

theorem parenLoopU_eq (len : Nat) : ∀ (cs : List Char) (s : List Char),
    (∀ c ∈ s, c.toNat < 128) →
    parenLoopU len cs s = parenLoop len cs s ∧
    (∀ c ∈ parenLoop len cs s, c.toNat < 128) := by
  intro cs
  induction cs with
  | nil =>
    intro s hs
    exact ⟨rfl, by simpa [parenLoop] using hs⟩
  | cons c cs ih =>
    intro s hs
    have hinner := parenInnerU_eq len (findall s [c]) s hs
    refine ⟨?_, ?_⟩
    · rw [parenLoopU, parenLoop, hinner.1]
      exact (ih _ hinner.2).1
    · rw [parenLoop]
      exact (ih _ hinner.2).2

theorem lcLoopU_eq (sl : List Char) (len : Nat) : ∀ (es : List (List Char)) (s : List Char),
    (∀ c ∈ s, c.toNat < 128) → (∀ e ∈ es, ∀ c ∈ e, c.toNat < 128) →
    lcLoopU sl len es s = lcLoop sl len es s ∧
    (∀ c ∈ lcLoop sl len es s, c.toNat < 128) := by
  intro es
  induction es with
  | nil =>
    intro s hs _
    exact ⟨rfl, by simpa [lcLoop] using hs⟩
  | cons e es ih =>
    intro s hs hes
    have hinner := lcInnerU_eq sl len (hes e (by simp)) (findall sl e) s hs
    have htl : ∀ e2 ∈ es, ∀ c ∈ e2, c.toNat < 128 := fun e2 he2 => hes e2 (by simp [he2])
    refine ⟨?_, ?_⟩
    · rw [lcLoopU, lcLoop, hinner.1]
      exact (ih _ hinner.2 htl).1
    · rw [lcLoop]
      exact (ih _ hinner.2 htl).2

theorem ucLoopU_eq (sl : List Char) (len : Nat) : ∀ (es : List (List Char)) (s : List Char),
    (∀ c ∈ s, c.toNat < 128) → (∀ e ∈ es, ∀ c ∈ e, c.toNat < 128) →
    ucLoopU sl len es s = ucLoop sl len es s ∧
    (∀ c ∈ ucLoop sl len es s, c.toNat < 128) := by
  intro es
  induction es with
  | nil =>
    intro s hs _
    exact ⟨rfl, by simpa [ucLoop] using hs⟩
  | cons e es ih =>
    intro s hs hes
    have hinner := ucInnerU_eq sl len (hes e (by simp)) (findall sl e) s hs
    have htl : ∀ e2 ∈ es, ∀ c ∈ e2, c.toNat < 128 := fun e2 he2 => hes e2 (by simp [he2])
    refine ⟨?_, ?_⟩
    · rw [ucLoopU, ucLoop, hinner.1]
      exact (ih _ hinner.2 htl).1
    · rw [ucLoop]
      exact (ih _ hinner.2 htl).2

/-- On ASCII inputs the faithful (string-valued-case) title caser agrees
with the per-character pipeline. -/
theorem titleCoreU_eq {s0 : List Char} (h : ∀ c ∈ s0, c.toNat < 128) :
    titleCoreU s0 = titleCore (s0.map pyLower) := by
  cases s0 with
  | nil => rfl
  | cons a as =>
    have ha : a.toNat < 128 := h a (by simp)
    have has : ∀ c ∈ as, c.toNat < 128 := fun c hc => h c (by simp [hc])
    have hsl : strLowerU (a :: as) = pyLower a :: as.map pyLower := by
      show pyLowerU a ++ strLowerU as = _
      rw [pyLowerU_ascii ha, strLowerU_ascii has]
      rfl
    have hup : pyUpperU (pyLower a) = [pyUpper (pyLower a)] :=
      pyUpperU_ascii (pyLower_lt_128 ha)
    have hsla : ∀ x ∈ pyLower a :: as.map pyLower, x.toNat < 128 := by
      intro x hx
      rcases List.mem_cons.mp hx with rfl | hx
      · exact pyLower_lt_128 ha
      · exact map_pyLower_ascii has x hx
    have hs2a : ∀ x ∈ pyUpper (pyLower a) :: as.map pyLower, x.toNat < 128 := by
      intro x hx
      rcases List.mem_cons.mp hx with rfl | hx
      · exact pyUpper_lt_128 (pyLower_lt_128 ha)
      · exact map_pyLower_ascii has x hx
    have hU : titleCoreU (a :: as) =
        ucLoopU (pyLower a :: as.map pyLower) (as.length + 1) uppercase_exceptions
          (lcLoopU (pyLower a :: as.map pyLower) (as.length + 1) lowercase_exceptions
            (parenLoopU (as.length + 1) paren_chars
              (padLoopU (as.length + 1) padding_chars
                (pyUpper (pyLower a) :: as.map pyLower)))) := by
      unfold titleCoreU
      rw [hsl]
      dsimp only
      rw [hup]
      rfl
    have hA : titleCore ((a :: as).map pyLower) =
        ucLoop (pyLower a :: as.map pyLower) ((as.map pyLower).length + 1)
          uppercase_exceptions
          (lcLoop (pyLower a :: as.map pyLower) ((as.map pyLower).length + 1)
            lowercase_exceptions
            (parenLoop ((as.map pyLower).length + 1) paren_chars
              (padLoop ((as.map pyLower).length + 1) padding_chars
                (pyUpper (pyLower a) :: as.map pyLower)))) := by
      show titleCore (pyLower a :: as.map pyLower) = _
      unfold titleCore
      rfl
    rw [hU, hA]
    simp only [List.length_map]
    have h3 := padLoopU_eq (as.length + 1) padding_chars _ hs2a
    rw [h3.1]
    have h4 := parenLoopU_eq (as.length + 1) paren_chars _ h3.2
    rw [h4.1]
    have h5 := lcLoopU_eq (pyLower a :: as.map pyLower) (as.length + 1)
      lowercase_exceptions _ h4.2 (by decide)
    rw [h5.1]
    exact (ucLoopU_eq (pyLower a :: as.map pyLower) (as.length + 1)
      uppercase_exceptions _ h5.2 (by decide)).1

theorem str_title_case_u_of_nil {t : String} (h : t.data = []) :
    str_title_case_u t = t := by
  unfold str_title_case_u
  rw [if_pos h]

theorem str_title_case_u_of_ne_nil {t : String} (h : t.data ≠ []) :
    str_title_case_u t = ⟨titleCoreU t.data⟩ := by
  unfold str_title_case_u
  rw [if_neg h]

/-- Claim C4 counterexample: Python's case mappings are one-to-many:
"ß".upper() is "SS", so `str_title_case("ß")` already expands in the
first-character step to "SS" — two characters instead of one and with a
different lowercase folding ("ss" versus "ß") — refuting the universal
length/case-folding claim on the program. -/
theorem str_title_case_u_length_cex :
    str_title_case_u "ß" = "SS" ∧
    ("ß" : String).length = 1 ∧ (str_title_case_u "ß").length = 2 ∧
    strLowerU (str_title_case_u "ß").data ≠ strLowerU ("ß" : String).data := by
  refine ⟨?_, ?_, ?_, ?_⟩
  · decide
  · decide
  · decide
  · decide

/-- Claim C5 counterexample: `str_title_case("ß")` is "SS" but a second
application gives "Ss", so idempotence fails on the program at "ß". -/
theorem str_title_case_u_idem_cex :
    str_title_case_u "ß" = "SS" ∧
    str_title_case_u (str_title_case_u "ß") = "Ss" ∧
    str_title_case_u (str_title_case_u "ß") ≠ str_title_case_u "ß" := by
  refine ⟨?_, ?_, ?_⟩
  · decide
  · decide
  · decide

/-- Claim C4 (amended): for every input string whose characters are all
ASCII — where Python's case mappings are single characters, so the
faithful string-valued model provably coincides with the per-character
one — `str_title_case` returns a string of the same length that differs
from the input only in character case (equal lowercase foldings).  For
non-ASCII inputs the one-to-many case mappings can change the length
(see the counterexample "ß"). -/
theorem str_title_case_u_ascii_length_case (s : String)
    (h : ∀ c ∈ s.data, c.toNat < 128) :
    (str_title_case_u s).length = s.length ∧
    (str_title_case_u s).data.map pyLower = s.data.map pyLower := by
  by_cases hnil : s.data = []
  · rw [str_title_case_u_of_nil hnil]
    exact ⟨rfl, rfl⟩
  · have hdata : (str_title_case_u s).data = titleCore (s.data.map pyLower) := by
      rw [str_title_case_u_of_ne_nil hnil]
      exact titleCoreU_eq h
    have hinv : (titleCore (s.data.map pyLower)).map pyLower = s.data.map pyLower :=
      titleCore_map_pyLower (map_pyLower_idem s.data)
    constructor
    · show (str_title_case_u s).data.length = s.data.length
      rw [hdata]
      have hcl := congrArg List.length hinv
      simpa using hcl
    · rw [hdata, hinv]

theorem str_title_case_u_ascii_length_case_witness :
    (str_title_case_u "movie night 1999").length = ("movie night 1999" : String).length ∧
    (str_title_case_u "movie night 1999").data.map pyLower =
      ("movie night 1999" : String).data.map pyLower :=
  str_title_case_u_ascii_length_case "movie night 1999" (by decide)

/-- Claim C5 (amended): `str_title_case` is idempotent on every input
string whose characters are all ASCII (where the faithful model
coincides with the per-character one); on non-ASCII inputs one-to-many
case mappings break idempotence (see the counterexample "ß"). -/
theorem str_title_case_u_ascii_idempotent (s : String)
    (h : ∀ c ∈ s.data, c.toNat < 128) :
    str_title_case_u (str_title_case_u s) = str_title_case_u s := by
  by_cases hnil : s.data = []
  · have h1 : str_title_case_u s = s := str_title_case_u_of_nil hnil
    rw [h1]
    exact h1
  · have hdata : (str_title_case_u s).data = titleCore (s.data.map pyLower) := by
      rw [str_title_case_u_of_ne_nil hnil]
      exact titleCoreU_eq h
    have hinv : (titleCore (s.data.map pyLower)).map pyLower = s.data.map pyLower :=
      titleCore_map_pyLower (map_pyLower_idem s.data)
    have hascii : ∀ c ∈ (str_title_case_u s).data, c.toNat < 128 := by
      intro c hc
      have hmem : pyLower c ∈ (str_title_case_u s).data.map pyLower :=
        List.mem_map_of_mem _ hc
      rw [hdata, hinv] at hmem
      exact lt_128_of_pyLower (map_pyLower_ascii h (pyLower c) hmem)
    have hne : (str_title_case_u s).data ≠ [] := by
      rw [hdata]
      intro hcon
      rw [hcon] at hinv
      have hm : s.data.map pyLower = [] := by rw [← hinv]; simp
      exact hnil (List.map_eq_nil_iff.mp hm)
    rw [str_title_case_u_of_ne_nil hne]
    rw [show titleCoreU (str_title_case_u s).data =
        titleCore ((str_title_case_u s).data.map pyLower) from titleCoreU_eq hascii]
    rw [hdata, hinv]
    rw [str_title_case_u_of_ne_nil hnil]
    rw [show titleCoreU s.data = titleCore (s.data.map pyLower) from titleCoreU_eq h]

theorem str_title_case_u_ascii_idempotent_witness :
    str_title_case_u (str_title_case_u "the lord of the rings") =
      str_title_case_u "the lord of the rings" :=
  str_title_case_u_ascii_idempotent "the lord of the rings" (by decide)

end Mnamer
